import Mathlib

/-!
# Verification of the simple-web-host static file server

A shallow embedding of the request-validation / path-sanitization pipeline
and the time-bucketed log retention engine of `main.go`, together with
proofs about the spec's claims.

The Go program runs on linux (the Dockerfile builds with `GOOS=linux`), so
`filepath.Separator` is `'/'`, `filepath.FromSlash` is the identity, and
backslash is an ordinary character.  Paths are modelled as Lean `String`s
(lists of characters); machine integers in the source (`int`, `int64`)
stay well inside their ranges here and are modelled as `Nat`/`Int`.
-/

set_option autoImplicit false

namespace SimpleWebHost

/-! ## Go `path/filepath` (Unix flavour)

`filepath.Clean` is the Plan-9 lexical cleaning algorithm: split the path
into `/`-separated elements, drop empty and `.` elements, let `..` pop the
previous element (except that `..` entries accumulate at the start of a
relative path and disappear at the root of a rooted one), and re-join,
keeping a leading `/` for rooted paths and returning `.` when nothing is
left. -/

/-- Split a character list into its `/`-separated segments.
`segsOf []` is `[[]]`, matching the usual string-split convention. -/
def segsOf : List Char → List (List Char)
  | [] => [[]]
  | c :: rest =>
    if c = '/' then [] :: segsOf rest
    else
      match segsOf rest with
      | s :: ss => (c :: s) :: ss
      | [] => [[c]]

/-- Process the segments of a path left to right, maintaining the stack of
surviving elements, as `filepath.Clean` does. -/
def cleanStack (rooted : Bool) : List (List Char) → List (List Char) → List (List Char)
  | acc, [] => acc
  | acc, seg :: rest =>
    if seg = [] ∨ seg = ['.'] then cleanStack rooted acc rest
    else if seg = ['.', '.'] then
      if acc = [] then
        if rooted then cleanStack rooted acc rest
        else cleanStack rooted [['.', '.']] rest
      else if acc.getLast? = some ['.', '.'] then cleanStack rooted (acc ++ [['.', '.']]) rest
      else cleanStack rooted acc.dropLast rest
    else cleanStack rooted (acc ++ [seg]) rest

/-- Re-join the surviving elements with `/`. -/
def joinSegs : List (List Char) → List Char
  | [] => []
  | [s] => s
  | s :: rest => s ++ '/' :: joinSegs rest

/-- `filepath.Clean` on characters. -/
def cleanL (l : List Char) : List Char :=
  if l = [] then ['.']
  else
    let rooted := l.head? = some '/'
    let st := cleanStack rooted [] (segsOf l)
    if rooted then '/' :: joinSegs st
    else if st = [] then ['.'] else joinSegs st

/-- Go `filepath.Clean` (Unix). -/
def clean (s : String) : String := ⟨cleanL s.data⟩

/-- Go `filepath.Join(a, b)` (Unix): skip empty elements, join the rest
with `/`, and `Clean` the result. -/
def join2 (a b : String) : String :=
  if a = "" then (if b = "" then "" else clean b)
  else clean ⟨a.data ++ '/' :: b.data⟩

/-- Go `filepath.IsAbs` (Unix): the path starts with `/`. -/
def isAbs (s : String) : Bool := s.data.head? = some '/'

/-- Go `filepath.Abs` with the process working directory `cwd` made
explicit: `Clean` an absolute path, otherwise join it under `cwd`.
(`Abs` can only fail when `Getwd` fails; that error path is not modelled.) -/
def absPathOf (cwd s : String) : String :=
  if isAbs s then clean s else join2 cwd s

/-! ## `sanitizePath` -/

/-- The path separator string, `string(filepath.Separator)` on linux. -/
def sepS : String := "/"

/-- The distinct internal rejection reasons of `sanitizePath`, one per
`fmt.Errorf` site. -/
inductive RejectReason where
  | dirAccess
  | subdir
  | traversal
  | traversalAfterClean
  | escapesRoot
deriving DecidableEq

/-- Go `strings.TrimPrefix(p, "/")`: remove one leading slash if present. -/
def stripSlash (p : String) : String :=
  match p.data with
  | '/' :: rest => ⟨rest⟩
  | _ => p

/-- The `..` character sequence looked for by `strings.Contains(p, "..")`. -/
def dotdotL : List Char := ['.', '.']

/-- `(*Server).sanitizePath` from `main.go`, with the server's `wwwRoot`
and the process working directory (used by `filepath.Abs`) as parameters.
Returns the joined path on success, or the internal rejection reason. -/
def sanitizePath (cwd root p : String) : Except RejectReason String :=
  let p1 := stripSlash p
  if p1 = "" ∨ p1 = "." then Except.error RejectReason.dirAccess
  else if '/' ∈ p1.data ∨ '\\' ∈ p1.data then Except.error RejectReason.subdir
  else if dotdotL <:+: p1.data then Except.error RejectReason.traversal
  else
    let c := clean p1
    if dotdotL <:+: c.data then Except.error RejectReason.traversalAfterClean
    else
      let fullPath := join2 root c
      let absRoot := absPathOf cwd root
      let absAll := absPathOf cwd fullPath
      if ¬ (absRoot ++ sepS).data <+: absAll.data ∧ absAll ≠ absRoot then
        Except.error RejectReason.escapesRoot
      else Except.ok fullPath

/-! ## Extension policy -/

/-- The `allowedExts` whitelist map from `main.go`, as a membership test. -/
def allowedExts (e : String) : Bool :=
  e = ".html" || e = ".css" || e = ".js" || e = ".png" || e = ".jpg" ||
  e = ".jpeg" || e = ".gif" || e = ".svg" || e = ".webp" || e = ".ico" ||
  e = ".json" || e = ".txt" || e = ".md"

/-- The `blockedExts` map from `main.go`. -/
def blockedExts (e : String) : Bool := e = ".log"

/-- The handler's two extension `if`s (blocklist first, then default-deny
allowlist), abstracted over the allowlist so that blocklist precedence can
be stated against an arbitrary (e.g. carelessly edited) allowlist:
`true` means the extension is servable. -/
def extDecisionWith (allow : String → Bool) (e : String) : Bool :=
  if blockedExts e then false
  else if ¬ allow e then false
  else true

/-- Scan a reversed path for Go `filepath.Ext`: walk from the end, stop at
a separator, return from the last dot. `acc` holds the characters already
walked past, in original order. -/
def extScan : List Char → List Char → List Char
  | [], _ => []
  | c :: rest, acc =>
    if c = '/' then []
    else if c = '.' then c :: acc
    else extScan rest (c :: acc)

/-- Go `filepath.Ext`: the suffix of the last element starting at its
final dot, or `""`. -/
def fileExt (p : String) : String := ⟨extScan p.data.reverse []⟩

/-- ASCII case-lowering of one character. -/
def lowerChar (c : Char) : Char :=
  if 'A' ≤ c ∧ c ≤ 'Z' then Char.ofNat (c.toNat + 32) else c

/-- Go `strings.ToLower`, modelled for ASCII input.  Known deviation: Go
lowers the few non-ASCII runes with ASCII lowercase forms (U+212A to `k`,
U+0130 to `i`), which this map leaves untouched; every extension in the
policy tables is ASCII and no theorem here evaluates the handler at a
non-ASCII extension. -/
def asciiLower (s : String) : String := ⟨s.data.map lowerChar⟩

/-! ## The request handler -/

/-- Result of `os.Stat` as the handler distinguishes it:
the file is absent (`os.IsNotExist`), some other stat error, or a file
with its `IsDir` bit. -/
inductive StatRes where
  | notExist
  | otherErr
  | found (isDir : Bool)
deriving DecidableEq

/-- The pipeline steps of `handleRequest`, in the spec's state-machine
vocabulary.  A step's event is emitted when the step is performed. -/
inductive Ev where
  | received
  | methodChecked
  | pathValidated
  | statd
  | extChecked
deriving DecidableEq

/-- A client-visible response: status code and body. -/
structure HttpResp where
  status : Nat
  body : String
deriving DecidableEq

/-- One structured log record, restricted to the fields determined by the
request and response (`timestamp` and `duration_ms` are wall-clock values
outside the model). `bytes` is the recorder's byte count. -/
structure LogEntry where
  method : String
  path : String
  status : Nat
  bytes : Nat
deriving DecidableEq

def mGET : String := "GET"
def mHEAD : String := "HEAD"
def msgMethod : String := "Method Not Allowed\n"
def msgForbidden : String := "Forbidden\n"
def msgNotFound : String := "Not Found\n"
def msgInternal : String := "Internal Server Error\n"

/-- The steps up to and including the `os.Stat` call. -/
def evsStat : List Ev := [Ev.received, Ev.methodChecked, Ev.pathValidated, Ev.statd]

/-- The steps up to and including the extension check. -/
def evsExt : List Ev := evsStat ++ [Ev.extChecked]

/-- The body of `(*Server).handleRequest` (without the deferred log):
performs the checks in source order and returns the performed steps and
the response.  `stat` models `os.Stat`; `serve` models what
`http.ServeFile` writes for a path that passed every check. -/
def handleCore (cwd root : String) (stat : String → StatRes)
    (serve : String → HttpResp) (method urlPath : String) :
    List Ev × HttpResp :=
  if ¬ (method = mGET ∨ method = mHEAD) then
    ([Ev.received, Ev.methodChecked], ⟨405, msgMethod⟩)
  else
    match sanitizePath cwd root urlPath with
    | Except.error _ =>
      ([Ev.received, Ev.methodChecked, Ev.pathValidated], ⟨403, msgForbidden⟩)
    | Except.ok fullPath =>
      match stat fullPath with
      | StatRes.notExist => (evsStat, ⟨404, msgNotFound⟩)
      | StatRes.otherErr => (evsStat, ⟨500, msgInternal⟩)
      | StatRes.found d =>
        if d then (evsStat, ⟨403, msgForbidden⟩)
        else
          let ext := asciiLower (fileExt fullPath)
          if blockedExts ext then (evsExt, ⟨403, msgForbidden⟩)
          else if ¬ allowedExts ext then (evsExt, ⟨403, msgForbidden⟩)
          else (evsExt, serve fullPath)

/-- A finished request: performed steps, response, emitted log entries. -/
structure HandlerOut where
  events : List Ev
  resp : HttpResp
  logs : List LogEntry
deriving DecidableEq

/-- `(*Server).handleRequest` including the `defer`red call to
`logRequest`: Go's `defer` runs the hook exactly once when the handler
scope exits, whichever branch returned, so the model appends exactly one
entry built from the recorder's final status and byte count after the
branching body. -/
def handleRequestM (cwd root : String) (stat : String → StatRes)
    (serve : String → HttpResp) (method urlPath : String) : HandlerOut :=
  let er := handleCore cwd root stat serve method urlPath
  ⟨er.1, er.2, [⟨method, urlPath, er.2.status, er.2.body.length⟩]⟩

/-! ## The response recorder -/

/-- The mutable state of `responseRecorder`, plus the trace of status
codes forwarded to the wrapped `http.ResponseWriter` (so that
"not forwarded" is expressible). -/
structure RecState where
  statusCode : Nat
  bytesWritten : Nat
  wroteHeader : Bool
  fwdCodes : List Nat
deriving DecidableEq

/-- `responseRecorder.WriteHeader`. -/
def recWriteHeader (s : RecState) (code : Nat) : RecState :=
  if s.wroteHeader then s
  else { s with statusCode := code, wroteHeader := true, fwdCodes := s.fwdCodes ++ [code] }

/-- `responseRecorder.Write`, where `n` is the byte count the underlying
writer reports for this call (the recorder adds exactly that, whatever the
underlying writer did). -/
def recWrite (s : RecState) (n : Nat) : RecState :=
  let s1 := if s.wroteHeader then s else recWriteHeader s 200
  { s1 with bytesWritten := s1.bytesWritten + n }

/-- A call made on the recorder. -/
inductive RecOp where
  | writeHeaderOp (code : Nat)
  | writeOp (n : Nat)

/-- Run a sequence of calls against the recorder. -/
def runRec (s : RecState) : List RecOp → RecState
  | [] => s
  | RecOp.writeHeaderOp c :: rest => runRec (recWriteHeader s c) rest
  | RecOp.writeOp n :: rest => runRec (recWrite s n) rest

/-- The recorder as `handleRequest` constructs it:
`&responseRecorder{ResponseWriter: w, statusCode: http.StatusOK}`. -/
def initRec : RecState := ⟨200, 0, false, []⟩

/-- Total bytes the underlying writer reports across a call sequence. -/
def sumWrites : List RecOp → Nat
  | [] => 0
  | RecOp.writeHeaderOp _ :: rest => sumWrites rest
  | RecOp.writeOp n :: rest => n + sumWrites rest

/-! ## Civil time, the America/Chicago zone, and the retention sweep

`time.Time` instants are Unix seconds (`Int`); the civil view a
`time.Time` presents through `s.location` (its `Format` components) is a
`DateTime` of civil fields.  `s.location` is the real `America/Chicago`
zone the code loads (the deploy image carries tzdata), modelled by the
post-2007 US daylight-saving rule that governs every instant this server
can observe: CST is UTC-21600, CDT is UTC-18000, daylight time runs from
08:00 UTC on the second Sunday of March (02:00 standard time) to
07:00 UTC on the first Sunday of November (02:00 daylight time).
Converting a civil time back to an instant (`time.Date`, and hence
`time.ParseInLocation`) uses Go's own resolution algorithm, which picks
the earlier occurrence of an ambiguous fall-back civil hour and
normalizes nonexistent spring-forward times. -/

/-- A zoned `time.Time`, by its civil components in `s.location`. -/
structure DateTime where
  y : Nat
  m : Nat
  d : Nat
  h : Nat
  mi : Nat
  s : Nat
deriving DecidableEq

/-- Go `isLeap`: the Gregorian leap-year rule. -/
def isLeap (y : Nat) : Bool := y % 4 = 0 && (y % 100 ≠ 0 || y % 400 = 0)

/-- Days in a month, as Go `daysIn` computes it for `time.Parse`'s
day-of-month range check. -/
def daysInMonth (y m : Nat) : Nat :=
  if m = 2 then (if isLeap y then 29 else 28)
  else if m = 4 ∨ m = 6 ∨ m = 9 ∨ m = 11 then 30
  else 31

/-- Days from the civil epoch 1970-01-01 to `y`-`m`-`d` (proleptic
Gregorian; the standard era-based formula, floor division throughout). -/
def daysFromCivil (y m d : Int) : Int :=
  let y1 := if m ≤ 2 then y - 1 else y
  let era := Int.fdiv y1 400
  let yoe := y1 - era * 400
  let mp := Int.fmod (m + 9) 12
  let doy := Int.fdiv (153 * mp + 2) 5 + d - 1
  let doe := yoe * 365 + Int.fdiv yoe 4 - Int.fdiv yoe 100 + doy
  era * 146097 + doe - 719468

/-- Civil seconds since the civil epoch: pure calendar arithmetic on the
components, with no zone offset applied. -/
def civilSecs (t : DateTime) : Int :=
  daysFromCivil (t.y : Int) (t.m : Int) (t.d : Int) * 86400 +
    (t.h : Int) * 3600 + (t.mi : Int) * 60 + (t.s : Int)

/-- The civil year containing day `z` of the civil epoch (the year part
of the standard era-based inverse of `daysFromCivil`). -/
def civilYearOfDays (z : Int) : Int :=
  let z1 := z + 719468
  let era := Int.fdiv z1 146097
  let doe := z1 - era * 146097
  let yoe := Int.fdiv (doe - Int.fdiv doe 1460 + Int.fdiv doe 36524 - Int.fdiv doe 146096) 365
  let y := yoe + era * 400
  let doy := doe - (365 * yoe + Int.fdiv yoe 4 - Int.fdiv yoe 100)
  let mp := Int.fdiv (5 * doy + 2) 153
  let m := mp + (if mp < 10 then 3 else -9)
  if m ≤ 2 then y + 1 else y

/-- The UTC calendar year of a Unix instant (DST transitions sit in March
and November, far from any year boundary). -/
def yearOfInstant (u : Int) : Int := civilYearOfDays (Int.fdiv u 86400)

/-- Day of week of a civil day count; 0 is Sunday (1970-01-01 was a
Thursday). -/
def dowOfDays (z : Int) : Int := Int.emod (z + 4) 7

/-- The second Sunday of March of year `y`, as a civil day count. -/
def secondSundayMarch (y : Int) : Int :=
  let d1 := daysFromCivil y 3 1
  d1 + Int.emod (7 - dowOfDays d1) 7 + 7

/-- The first Sunday of November of year `y`, as a civil day count. -/
def firstSundayNovember (y : Int) : Int :=
  let d1 := daysFromCivil y 11 1
  d1 + Int.emod (7 - dowOfDays d1) 7

/-- The UTC instant at which daylight time begins in year `y`
(02:00 CST = 08:00 UTC on the second Sunday of March). -/
def dstStartUTC (y : Int) : Int := secondSundayMarch y * 86400 + 8 * 3600

/-- The UTC instant at which daylight time ends in year `y`
(02:00 CDT = 07:00 UTC on the first Sunday of November). -/
def dstEndUTC (y : Int) : Int := firstSundayNovember y * 86400 + 7 * 3600

/-- Is daylight-saving time in effect in America/Chicago at instant `u`? -/
def dstActive (u : Int) : Bool :=
  let y := yearOfInstant u
  dstStartUTC y ≤ u ∧ u < dstEndUTC y

/-- The America/Chicago UTC offset at instant `u`: -18000 during daylight
time, -21600 otherwise. -/
def chiOffset (u : Int) : Int := if dstActive u then -18000 else -21600

/-- The start of the zone interval containing instant `u`, as Go's
`Location.lookup` reports it. -/
def lookupStart (u : Int) : Int :=
  let y := yearOfInstant u
  if dstActive u then dstStartUTC y
  else if u < dstStartUTC y then dstEndUTC (y - 1)
  else dstEndUTC y

/-- The end of the zone interval containing instant `u`. -/
def lookupEnd (u : Int) : Int :=
  let y := yearOfInstant u
  if dstActive u then dstEndUTC y
  else if u < dstStartUTC y then dstStartUTC y
  else dstStartUTC (y + 1)

/-- Go `time.Date` in America/Chicago (and hence what
`time.ParseInLocation` produces): take the civil seconds as if UTC, look
up the offset at that instant, shift to a candidate UTC instant, and if
the candidate falls outside the zone interval just looked up, re-look-up
the offset at the candidate.  This resolves an ambiguous fall-back civil
hour to its earlier (CDT) occurrence and normalizes nonexistent
spring-forward civil times, exactly as Go does. -/
def toInstant (t : DateTime) : Int :=
  let unix0 := civilSecs t
  let offset := chiOffset unix0
  let utc := unix0 - offset
  let offset2 := if utc < lookupStart unix0 ∨ lookupEnd unix0 ≤ utc then chiOffset utc else offset
  unix0 - offset2

/-- A decimal digit as a character. -/
def dg (n : Nat) : Char := Char.ofNat (48 + n)

/-- The numeric value of a digit character. -/
def dv (c : Char) : Nat := c.toNat - 48

/-- Is `c` an ASCII decimal digit? (Go `time`'s `isDigit`.) -/
def isDigit (c : Char) : Bool := '0' ≤ c && c ≤ '9'

/-- Two-digit zero-padded decimal, as `time.Format` prints `01`, `02`,
`15` components (faithful for values below 100). -/
def pad2 (n : Nat) : List Char := [dg (n / 10 % 10), dg (n % 10)]

/-- Four-digit zero-padded decimal, as `time.Format` prints `2006`
(faithful for years 0 through 9999). -/
def pad4 (n : Nat) : List Char :=
  [dg (n / 1000 % 10), dg (n / 100 % 10), dg (n / 10 % 10), dg (n % 10)]

/-- The characters of the fixed `.log` suffix. -/
def suffLog : List Char := ['.', 'l', 'o', 'g']

/-- The file name `currentLogFile` builds:
`now.Format("2006-01-02T15") + ".log"`. -/
def formatHourFile (t : DateTime) : String :=
  ⟨pad4 t.y ++ '-' :: (pad2 t.m ++ '-' :: (pad2 t.d ++ 'T' :: (pad2 t.h ++ suffLog)))⟩

/-- `(*Server).currentLogFile`: the bucket file path for the instant
`now`, under the log directory. -/
def currentLogFile (logDir : String) (now : DateTime) : String :=
  join2 logDir (formatHourFile now)

/-- `time.Parse`'s `getnum` with `fixed = true` for two-digit layout
components (`01`, `02`): exactly two digits. -/
def parse2 : List Char → Option (Nat × List Char)
  | a :: b :: rest =>
    if isDigit a && isDigit b then some (dv a * 10 + dv b, rest) else none
  | _ => none

/-- The four-digit year of layout `2006`. -/
def parse4 : List Char → Option (Nat × List Char)
  | a :: b :: c :: d :: rest =>
    if isDigit a && isDigit b && isDigit c && isDigit d then
      some (((dv a * 10 + dv b) * 10 + dv c) * 10 + dv d, rest)
    else none
  | _ => none

/-- A literal layout character must match exactly. -/
def expectChar (c : Char) : List Char → Option (List Char)
  | [] => none
  | x :: rest => if x = c then some rest else none

/-- `getnum` with `fixed = false` for the hour layout `15`: one digit, or
two when the next character is also a digit. -/
def parseHourRem : List Char → Option (Nat × List Char)
  | [] => none
  | a :: rest =>
    if isDigit a then
      match rest with
      | b :: rest2 => if isDigit b then some (dv a * 10 + dv b, rest2) else some (dv a, rest)
      | [] => some (dv a, [])
    else none

/-- `time.ParseInLocation("2006-01-02T15.log", name, loc)` on characters:
the layout components in order, the trailing `.log` literal with nothing
after it, and Go's range validation (hour below 24, month 1–12, day
within the month, leap years included). -/
def parseLogNameL (l : List Char) : Option DateTime :=
  (parse4 l).bind fun yl =>
    (expectChar '-' yl.2).bind fun l2 =>
      (parse2 l2).bind fun ml =>
        (expectChar '-' ml.2).bind fun l4 =>
          (parse2 l4).bind fun dl =>
            (expectChar 'T' dl.2).bind fun l6 =>
              (parseHourRem l6).bind fun hr =>
                if hr.2 = suffLog then
                  if hr.1 ≤ 23 ∧ 1 ≤ ml.1 ∧ ml.1 ≤ 12 ∧ 1 ≤ dl.1 ∧ dl.1 ≤ daysInMonth yl.1 ml.1 then
                    some ⟨yl.1, ml.1, dl.1, hr.1, 0, 0⟩
                  else none
                else none

/-- Parse a bucket file name back to its bucket time, as `cleanupOldLogs`
does. -/
def parseLogName (s : String) : Option DateTime := parseLogNameL s.data

/-- One entry of `os.ReadDir(s.logDir)`. -/
structure DirEntry where
  name : String
  isDir : Bool
deriving DecidableEq

/-- `(*Server).cleanupOldLogs`, over the listed directory entries and the
sweep instant `now` (Unix seconds): returns the names the sweep removes,
in order (a failing `os.Remove` is logged and changes nothing else, so
the removal *attempts* are the deletions of the model).  The comparison
`t.Before(cutoff)` is on instants: the parsed civil bucket time converted
by `toInstant`, against `now` minus the window. -/
def cleanupOldLogs (entries : List DirEntry) (now : Int) (retentionHours : Nat) :
    List String :=
  let cutoff : Int := now - (retentionHours : Int) * 3600
  entries.filterMap fun e =>
    if e.isDir = true then none
    else if ¬ suffLog <:+ e.name.data then none
    else
      match parseLogName e.name with
      | none => none
      | some t => if toInstant t < cutoff then some e.name else none

/-- The deletion condition of the claim: a non-directory entry whose name
parses as a bucket whose instant is strictly before the cutoff. -/
def sweepTargetB (now : Int) (retentionHours : Nat) (e : DirEntry) : Bool :=
  !e.isDir &&
    match parseLogName e.name with
    | some t => decide (toInstant t < now - (retentionHours : Int) * 3600)
    | none => false

/-- The civil components of an actual `time.Time` instant: a valid
Gregorian calendar date with in-range clock fields, within the four-digit
years the bucket file name format covers. -/
def ValidDT (t : DateTime) : Prop :=
  t.y ≤ 9999 ∧ 1 ≤ t.m ∧ t.m ≤ 12 ∧ 1 ≤ t.d ∧ t.d ≤ daysInMonth t.y t.m ∧
    t.h < 24 ∧ t.mi < 60 ∧ t.s < 60

instance (t : DateTime) : Decidable (ValidDT t) := by
  unfold ValidDT
  infer_instance

/-! ## Go `filepath.Base` -/

/-- Strip trailing separators, as `filepath.Base` does first. -/
def dropTrailingSep (l : List Char) : List Char :=
  (l.reverse.dropWhile (fun c => c = '/')).reverse

/-- The part after the last separator. -/
def afterLastSep (l : List Char) : List Char :=
  (l.reverse.takeWhile (fun c => c ≠ '/')).reverse

/-- Go `filepath.Base` (Unix): empty path gives `.`, all-slash paths give
`/`, otherwise the last element with trailing slashes removed. -/
def baseName (s : String) : String :=
  if s = "" then "."
  else
    let t := dropTrailingSep s.data
    if t = [] then sepS
    else ⟨afterLastSep t⟩

/-! ## Concrete test fixtures (used by witnesses and counterexamples) -/

def emptyS : String := ""
def dotLog : String := ".log"
def dotExe : String := ".exe"
def wCwd : String := "/"
def wRoot : String := "/var/www"
def wPathHtml : String := "/index.html"
def wOutHtml : String := "/var/www/index.html"
def wPathExe : String := "/missing.exe"
def wOutExe : String := "/var/www/missing.exe"
def wPathRootOnly : String := "/"
def wPathSub : String := "/a/b"

/-- A filesystem where no path exists. -/
def wStatMissing : String → StatRes := fun _ => StatRes.notExist

/-- A static-content sender that writes an empty 200 response. -/
def wServe : String → HttpResp := fun _ => ⟨200, emptyS⟩

/-- An allowlist that admits everything, for blocklist-precedence tests. -/
def allowAllExts : String → Bool := fun _ => true

/-- The civil view of the retention witness's sweep instant:
2025-10-11 14:30:00 CDT. -/
def wNow : DateTime := ⟨2025, 10, 11, 14, 30, 0⟩

/-- The retention witness's sweep instant, 2025-10-11T19:30:00Z. -/
def wNowInstant : Int := 1760211000

/-- A log directory holding the current hour's bucket, an expired bucket,
and a malformed name. -/
def wEntries : List DirEntry :=
  [⟨"2025-10-01T00.log", false⟩, ⟨"2025-10-11T14.log", false⟩, ⟨"junk.log", false⟩]

/-- The C8 counterexample instant: 2025-11-02T07:30:00Z, half an hour
after the DST fall-back transition. -/
def cxNow : Int := 1762068600

/-- The civil view of `cxNow` in America/Chicago: 01:30 CST, the second
occurrence of the 01:xx civil hour that day. -/
def cxCivil : DateTime := ⟨2025, 11, 2, 1, 30, 0⟩

/-- A log directory holding only the current hour's bucket file. -/
def cxEntries : List DirEntry := [⟨"2025-11-02T01.log", false⟩]

/-! ## Lemmas: the response recorder -/

/-- Once the header is written, later calls change neither the recorded
status nor what was forwarded, and the header stays written. -/
theorem runRec_frozen (ops : List RecOp) (s : RecState) (h : s.wroteHeader = true) :
    (runRec s ops).statusCode = s.statusCode ∧ (runRec s ops).fwdCodes = s.fwdCodes := by
  induction ops generalizing s with
  | nil => exact ⟨rfl, rfl⟩
  | cons op rest ih =>
    cases op with
    | writeHeaderOp c =>
      have hs : recWriteHeader s c = s := by simp [recWriteHeader, h]
      rw [runRec, hs]
      exact ih s h
    | writeOp n =>
      have hs : recWrite s n = { s with bytesWritten := s.bytesWritten + n } := by
        simp [recWrite, h]
      rw [runRec, hs]
      exact ih _ h

/-- The byte counter accumulates exactly the underlying writer's reported
counts. -/
theorem runRec_bytes (ops : List RecOp) (s : RecState) :
    (runRec s ops).bytesWritten = s.bytesWritten + sumWrites ops := by
  induction ops generalizing s with
  | nil => simp [runRec, sumWrites]
  | cons op rest ih =>
    cases op with
    | writeHeaderOp c =>
      rw [runRec, ih]
      have : (recWriteHeader s c).bytesWritten = s.bytesWritten := by
        by_cases h : s.wroteHeader <;> simp [recWriteHeader, h]
      rw [this, sumWrites]
    | writeOp n =>
      rw [runRec, ih]
      have : (recWrite s n).bytesWritten = s.bytesWritten + n := by
        by_cases h : s.wroteHeader <;> simp [recWrite, recWriteHeader, h]
      rw [this, sumWrites]
      omega

/-- C9: For every sequence of `WriteHeader` calls on the response
recorder, the recorded status code is the argument of the first call, and
every subsequent `WriteHeader` call leaves the recorded status unchanged
and is not forwarded to the underlying writer (exactly the first code is
forwarded); the recorded byte count is the sum of the byte counts the
underlying writer reports across all `Write` calls. -/
theorem c9_recorder_first_header_wins (c : Nat) (ops tail : List RecOp) :
    ((runRec initRec (RecOp.writeHeaderOp c :: tail)).statusCode = c ∧
      (runRec initRec (RecOp.writeHeaderOp c :: tail)).fwdCodes = [c]) ∧
    (runRec initRec ops).bytesWritten = sumWrites ops := by
  constructor
  · rw [runRec]
    have h1 : recWriteHeader initRec c =
        { statusCode := c, bytesWritten := 0, wroteHeader := true, fwdCodes := [c] } := by
      simp [recWriteHeader, initRec]
    rw [h1]
    exact runRec_frozen tail _ rfl
  · rw [runRec_bytes]
    simp [initRec]

/-! ## Lemmas and claim theorems: the extension policy -/

/-- C4: The extension policy is default-deny with blocklist precedence:
`.log` is refused under any allowlist whatsoever (including one that
lists it), and any extension the allowlist does not contain — the empty
extension included — is refused. -/
theorem c4_extension_policy :
    (∀ allow : String → Bool, extDecisionWith allow dotLog = false) ∧
    (∀ e : String, allowedExts e = false → extDecisionWith allowedExts e = false) ∧
    allowedExts emptyS = false := by
  refine ⟨fun allow => ?_, fun e he => ?_, by decide⟩
  · simp [extDecisionWith, blockedExts, dotLog]
  · simp [extDecisionWith, he]

/-- Witness for C4 at concrete inputs: `.log` is refused even by an
allow-everything allowlist, and `.exe` (not allowlisted) is refused. -/
theorem c4_extension_policy_witness :
    extDecisionWith allowAllExts dotLog = false ∧
    extDecisionWith allowedExts dotExe = false :=
  ⟨c4_extension_policy.1 allowAllExts, c4_extension_policy.2.1 dotExe (by decide)⟩

/-! ## Claim theorems: the handler -/

/-- C6: Every branch of the handler — bad method, validation rejection,
missing file, stat error, directory target, rejected extension, or a
served file — emits exactly one log entry, because the entry is written
by the `defer`red hook that runs once on every exit path. -/
theorem c6_exactly_one_log_entry (cwd root : String) (stat : String → StatRes)
    (serve : String → HttpResp) (method p : String) :
    (handleRequestM cwd root stat serve method p).logs.length = 1 := rfl

/-- Any `sanitizePath` rejection makes the handler answer the uniform
403 "Forbidden" response. -/
theorem handleCore_reject (cwd root : String) (stat : String → StatRes)
    (serve : String → HttpResp) (p : String) (e : RejectReason)
    (h : sanitizePath cwd root p = Except.error e) :
    handleCore cwd root stat serve mGET p =
      ([Ev.received, Ev.methodChecked, Ev.pathValidated], ⟨403, msgForbidden⟩) := by
  simp [handleCore, h]

/-- C5: Two candidate paths rejected by `sanitizePath` for different (or
equal) internal reasons receive the identical client-visible response:
status 403 with the generic "Forbidden" body, so the response does not
reveal which rejection rule fired. -/
theorem c5_uniform_rejection_response (cwd root : String) (stat : String → StatRes)
    (serve : String → HttpResp) (p1 p2 : String) (e1 e2 : RejectReason)
    (h1 : sanitizePath cwd root p1 = Except.error e1)
    (h2 : sanitizePath cwd root p2 = Except.error e2) :
    (handleCore cwd root stat serve mGET p1).2 = (handleCore cwd root stat serve mGET p2).2 ∧
    (handleCore cwd root stat serve mGET p1).2 = ⟨403, msgForbidden⟩ := by
  rw [handleCore_reject cwd root stat serve p1 e1 h1,
    handleCore_reject cwd root stat serve p2 e2 h2]
  exact ⟨rfl, rfl⟩

/-- Witness for C5: `/` (rejected as directory access) and `/a/b`
(rejected for containing a separator) get the same response. -/
theorem c5_uniform_rejection_response_witness :
    (handleCore wCwd wRoot wStatMissing wServe mGET wPathRootOnly).2 =
      (handleCore wCwd wRoot wStatMissing wServe mGET wPathSub).2 ∧
    (handleCore wCwd wRoot wStatMissing wServe mGET wPathRootOnly).2 = ⟨403, msgForbidden⟩ :=
  c5_uniform_rejection_response wCwd wRoot wStatMissing wServe wPathRootOnly wPathSub
    RejectReason.dirAccess RejectReason.subdir (by rfl) (by rfl)

/-! ## Claim theorems: `sanitizePath` -/

/-- C3: A candidate whose remainder after stripping the single leading
slash still contains a path separator — forward or backward slash — is
rejected by `sanitizePath`, with the flat-namespace reason. -/
theorem c3_sanitizePath_rejects_separators (cwd root p : String)
    (h : '/' ∈ (stripSlash p).data ∨ '\\' ∈ (stripSlash p).data) :
    sanitizePath cwd root p = Except.error RejectReason.subdir := by
  have hne : ¬ (stripSlash p = "" ∨ stripSlash p = ".") := by
    rintro (he | he) <;> rw [he] at h <;> exact absurd h (by decide)
  simp only [sanitizePath]
  rw [if_neg hne, if_pos h]

/-- Witness for C3: `/a/b` is rejected. -/
theorem c3_sanitizePath_rejects_separators_witness :
    ('/' ∈ (stripSlash wPathSub).data ∨ '\\' ∈ (stripSlash wPathSub).data) ∧
    sanitizePath wCwd wRoot wPathSub = Except.error RejectReason.subdir :=
  ⟨by decide, c3_sanitizePath_rejects_separators wCwd wRoot wPathSub (by decide)⟩

/-- C1: Whenever `sanitizePath` accepts a candidate, the canonical
absolute form of the path it returns either equals the canonical absolute
served root or extends it by a path separator: no accepted candidate
resolves outside the served root. -/
theorem c1_sanitizePath_under_root (cwd root p out : String)
    (h : sanitizePath cwd root p = Except.ok out) :
    absPathOf cwd out = absPathOf cwd root ∨
    (absPathOf cwd root ++ sepS).data <+: (absPathOf cwd out).data := by
  simp only [sanitizePath] at h
  split_ifs at h with h1 h2 h3 h4 h5
  obtain rfl : join2 root (clean (stripSlash p)) = out := by
    exact Except.ok.inj h
  rcases not_and_or.mp h5 with h6 | h6
  · exact Or.inr (not_not.mp h6)
  · exact Or.inl (not_not.mp h6)

/-- Witness for C1: `/index.html` is accepted and lands under the root. -/
theorem c1_sanitizePath_under_root_witness :
    absPathOf wCwd wOutHtml = absPathOf wCwd wRoot ∨
    (absPathOf wCwd wRoot ++ sepS).data <+: (absPathOf wCwd wOutHtml).data :=
  c1_sanitizePath_under_root wCwd wRoot wPathHtml wOutHtml (by rfl)

/-! ## Claim theorems: handler step order (C2) -/

/-- Counterexample to C2 as stated: for `GET /missing.exe` on a
filesystem where the file does not exist, the handler performs the stat
step without ever performing the extension check, and answers
404 Not Found from the stat — not an extension rejection — because the
code stats before validating the extension. -/
theorem c2_counterexample_stat_before_ext :
    Ev.statd ∈ (handleCore wCwd wRoot wStatMissing wServe mGET wPathExe).1 ∧
    Ev.extChecked ∉ (handleCore wCwd wRoot wStatMissing wServe mGET wPathExe).1 ∧
    (handleCore wCwd wRoot wStatMissing wServe mGET wPathExe).2 = ⟨404, msgNotFound⟩ := by
  decide

/-- C2 (amended): the handler performs its steps in the order Received,
MethodChecked, PathValidated, Stat'd, ExtensionChecked — the stat comes
*before* the extension check — and a request for a non-existent file is
answered 404 by the stat step with the extension check never performed. -/
theorem c2_handler_step_order (cwd root : String) (stat : String → StatRes)
    (serve : String → HttpResp) (method p : String) :
    List.Sublist (handleCore cwd root stat serve method p).1 evsExt ∧
    (∀ fp, sanitizePath cwd root p = Except.ok fp → stat fp = StatRes.notExist →
      method = mGET ∨ method = mHEAD →
      Ev.extChecked ∉ (handleCore cwd root stat serve method p).1 ∧
      (handleCore cwd root stat serve method p).2 = ⟨404, msgNotFound⟩) := by
  constructor
  · have s1 : List.Sublist [Ev.received, Ev.methodChecked] evsExt := by decide
    have s2 : List.Sublist [Ev.received, Ev.methodChecked, Ev.pathValidated] evsExt := by decide
    have s3 : List.Sublist evsStat evsExt := by decide
    have s4 : List.Sublist evsExt evsExt := by decide
    simp only [handleCore]
    split_ifs with h1
    · split
      · exact s2
      · split
        · exact s3
        · exact s3
        · split_ifs
          · exact s3
          · exact s4
          · exact s4
          · exact s4
    · exact s1
  · intro fp hok hstat hm
    simp only [handleCore, if_neg (not_not_intro hm), hok, hstat]
    exact ⟨by decide, by trivial⟩

/-- Witness for the amended C2 at a concrete request. -/
theorem c2_handler_step_order_witness :
    Ev.extChecked ∉ (handleCore wCwd wRoot wStatMissing wServe mGET wPathExe).1 ∧
    (handleCore wCwd wRoot wStatMissing wServe mGET wPathExe).2 = ⟨404, msgNotFound⟩ :=
  (c2_handler_step_order wCwd wRoot wStatMissing wServe mGET wPathExe).2 wOutExe
    (by rfl) rfl (Or.inl rfl)

/-! ## Lemmas: bucket-name parsing -/

/-- `parse2` consumes from the front: the remainder is a suffix. -/
theorem parse2_suffix (l : List Char) (pr : Nat × List Char) (h : parse2 l = some pr) :
    pr.2 <:+ l := by
  cases l with
  | nil => simp [parse2] at h
  | cons a t =>
    cases t with
    | nil => simp [parse2] at h
    | cons b r =>
      simp only [parse2] at h
      split_ifs at h
      exact Option.some.inj h ▸ ⟨[a, b], rfl⟩

/-- `parse4` consumes from the front: the remainder is a suffix. -/
theorem parse4_suffix (l : List Char) (pr : Nat × List Char) (h : parse4 l = some pr) :
    pr.2 <:+ l := by
  cases l with
  | nil => simp [parse4] at h
  | cons a t =>
    cases t with
    | nil => simp [parse4] at h
    | cons b t2 =>
      cases t2 with
      | nil => simp [parse4] at h
      | cons c t3 =>
        cases t3 with
        | nil => simp [parse4] at h
        | cons d r =>
          simp only [parse4] at h
          split_ifs at h
          exact Option.some.inj h ▸ ⟨[a, b, c, d], rfl⟩

/-- `expectChar` consumes one character: the remainder is a suffix. -/
theorem expectChar_suffix (c : Char) (l rest : List Char) (h : expectChar c l = some rest) :
    rest <:+ l := by
  cases l with
  | nil => simp [expectChar] at h
  | cons x r =>
    simp only [expectChar] at h
    split_ifs at h
    exact Option.some.inj h ▸ ⟨[x], rfl⟩

/-- `parseHourRem` consumes one or two characters: the remainder is a
suffix. -/
theorem parseHourRem_suffix (l : List Char) (pr : Nat × List Char)
    (h : parseHourRem l = some pr) : pr.2 <:+ l := by
  cases l with
  | nil => simp [parseHourRem] at h
  | cons a t =>
    cases t with
    | nil =>
      simp only [parseHourRem] at h
      split_ifs at h
      exact Option.some.inj h ▸ ⟨[a], rfl⟩
    | cons b r =>
      simp only [parseHourRem] at h
      split_ifs at h
      · exact Option.some.inj h ▸ ⟨[a, b], rfl⟩
      · exact Option.some.inj h ▸ ⟨[a], rfl⟩

/-- Any name that parses as a bucket file name ends in `.log`. -/
theorem parseLogNameL_sufLog (l : List Char) (t : DateTime) (h : parseLogNameL l = some t) :
    suffLog <:+ l := by
  simp only [parseLogNameL, Option.bind_eq_some] at h
  obtain ⟨yl, h4, l2, hE1, ml, hp2, l4, hE2, dl, hp3, l6, hET, hr, hH, hfin⟩ := h
  split_ifs at hfin with h1 h2
  · have s6 : suffLog <:+ l6 := h1 ▸ parseHourRem_suffix l6 hr hH
    have s5 : suffLog <:+ dl.2 := s6.trans (expectChar_suffix _ _ _ hET)
    have s4 : suffLog <:+ l4 := s5.trans (parse2_suffix _ _ hp3)
    have s3 : suffLog <:+ ml.2 := s4.trans (expectChar_suffix _ _ _ hE2)
    have s2 : suffLog <:+ l2 := s3.trans (parse2_suffix _ _ hp2)
    have s1 : suffLog <:+ yl.2 := s2.trans (expectChar_suffix _ _ _ hE1)
    exact s1.trans (parse4_suffix _ _ h4)

/-! ## Claim theorems: the retention sweep -/

/-- C7: One sweep removes exactly the non-directory entries whose name
parses under the `2006-01-02T15.log` layout to a bucket strictly older
than `now` minus the retention window; directories, names without the
`.log` suffix, and unparsable names are untouched. -/
theorem c7_sweep_deletes_exactly_expired (entries : List DirEntry) (now : Int)
    (r : Nat) :
    cleanupOldLogs entries now r = (entries.filter (sweepTargetB now r)).map DirEntry.name := by
  induction entries with
  | nil => rfl
  | cons e rest ih =>
    by_cases hd : e.isDir = true
    · simp [cleanupOldLogs, sweepTargetB, List.filterMap_cons, List.filter_cons, hd] at ih ⊢
      exact ih
    · by_cases hsuf : suffLog <:+ e.name.data
      · cases hp : parseLogName e.name with
        | none =>
          simp [cleanupOldLogs, sweepTargetB, List.filterMap_cons, List.filter_cons,
            hd, hsuf, hp] at ih ⊢
          exact ih
        | some t =>
          by_cases hlt : toInstant t < now - (r : Int) * 3600
          · simp [cleanupOldLogs, sweepTargetB, List.filterMap_cons, List.filter_cons,
              hd, hsuf, hp, hlt] at ih ⊢
            exact ih
          · simp [cleanupOldLogs, sweepTargetB, List.filterMap_cons, List.filter_cons,
              hd, hsuf, hp, hlt] at ih ⊢
            exact ih
      · have hp : parseLogName e.name = none := by
          cases hp : parseLogName e.name with
          | none => rfl
          | some t => exact absurd (parseLogNameL_sufLog _ t hp) hsuf
        simp [cleanupOldLogs, sweepTargetB, List.filterMap_cons, List.filter_cons,
          hd, hsuf, hp] at ih ⊢
        exact ih

/-! ## Lemmas: formatting round-trip -/

/-- Printing a decimal digit yields a digit character with the same
value. -/
theorem dg_props : ∀ n, n < 10 → isDigit (dg n) = true ∧ dv (dg n) = n := by decide

/-- A two-digit zero-padded number parses back to itself. -/
theorem parse2_pad2 (n : Nat) (hn : n < 100) (rest : List Char) :
    parse2 (pad2 n ++ rest) = some (n, rest) := by
  have h1 := dg_props (n / 10 % 10) (by omega)
  have h2 := dg_props (n % 10) (by omega)
  simp only [pad2, List.cons_append, List.nil_append, parse2, h1.1, h2.1, h1.2, h2.2,
    Bool.and_self, if_true, Option.some.injEq, Prod.mk.injEq, and_true]
  omega

/-- A four-digit zero-padded number parses back to itself. -/
theorem parse4_pad4 (n : Nat) (hn : n ≤ 9999) (rest : List Char) :
    parse4 (pad4 n ++ rest) = some (n, rest) := by
  have h1 := dg_props (n / 1000 % 10) (by omega)
  have h2 := dg_props (n / 100 % 10) (by omega)
  have h3 := dg_props (n / 10 % 10) (by omega)
  have h4 := dg_props (n % 10) (by omega)
  simp only [pad4, List.cons_append, List.nil_append, parse4, h1.1, h2.1, h3.1, h4.1,
    h1.2, h2.2, h3.2, h4.2, Bool.and_self, if_true, Option.some.injEq, Prod.mk.injEq,
    and_true]
  omega

/-- A two-digit zero-padded hour parses back to itself under the
flexible-width hour rule. -/
theorem parseHourRem_pad2 (n : Nat) (hn : n < 100) (rest : List Char) :
    parseHourRem (pad2 n ++ rest) = some (n, rest) := by
  have h1 := dg_props (n / 10 % 10) (by omega)
  have h2 := dg_props (n % 10) (by omega)
  simp only [pad2, List.cons_append, List.nil_append, parseHourRem, h1.1, h2.1, h1.2, h2.2,
    if_true, Option.some.injEq, Prod.mk.injEq, and_true]
  omega

/-- A literal matches itself. -/
theorem expectChar_cons_self (c : Char) (rest : List Char) :
    expectChar c (c :: rest) = some rest := by
  simp [expectChar]

/-- No month has more than 31 days. -/
theorem daysInMonth_le (y m : Nat) : daysInMonth y m ≤ 31 := by
  unfold daysInMonth
  split_ifs <;> omega

/-- The name `currentLogFile` builds for a valid instant parses back to
that instant truncated to its hour. -/
theorem parse_formatHourFile (t : DateTime) (hv : ValidDT t) :
    parseLogName (formatHourFile t) = some ⟨t.y, t.m, t.d, t.h, 0, 0⟩ := by
  obtain ⟨hy, hm1, hm2, hd1, hd2, hh, -, -⟩ := hv
  have hdm := daysInMonth_le t.y t.m
  rw [parseLogName]
  show parseLogNameL
      (pad4 t.y ++ '-' :: (pad2 t.m ++ '-' :: (pad2 t.d ++ 'T' :: (pad2 t.h ++ suffLog)))) =
    some ⟨t.y, t.m, t.d, t.h, 0, 0⟩
  rw [parseLogNameL, parse4_pad4 t.y hy, Option.some_bind]
  rw [show ((t.y, '-' :: (pad2 t.m ++ '-' :: (pad2 t.d ++ 'T' :: (pad2 t.h ++ suffLog)))) :
      Nat × List Char).2 =
    '-' :: (pad2 t.m ++ '-' :: (pad2 t.d ++ 'T' :: (pad2 t.h ++ suffLog))) from rfl]
  rw [expectChar_cons_self, Option.some_bind]
  rw [parse2_pad2 t.m (by omega), Option.some_bind]
  rw [show ((t.m, '-' :: (pad2 t.d ++ 'T' :: (pad2 t.h ++ suffLog))) : Nat × List Char).2 =
    '-' :: (pad2 t.d ++ 'T' :: (pad2 t.h ++ suffLog)) from rfl]
  rw [expectChar_cons_self, Option.some_bind]
  rw [parse2_pad2 t.d (by omega), Option.some_bind]
  rw [show ((t.d, 'T' :: (pad2 t.h ++ suffLog)) : Nat × List Char).2 =
    'T' :: (pad2 t.h ++ suffLog) from rfl]
  rw [expectChar_cons_self, Option.some_bind]
  rw [parseHourRem_pad2 t.h (by omega), Option.some_bind]
  rw [if_pos rfl, if_pos (show t.h ≤ 23 ∧ 1 ≤ t.m ∧ t.m ≤ 12 ∧ 1 ≤ t.d ∧
    t.d ≤ daysInMonth t.y t.m from ⟨by omega, hm1, hm2, hd1, hd2⟩)]

/-- The zone offset is always one of CDT's -18000 and CST's -21600. -/
theorem chiOffset_cases (u : Int) : chiOffset u = -18000 ∨ chiOffset u = -21600 := by
  unfold chiOffset
  split_ifs
  · exact Or.inl rfl
  · exact Or.inr rfl

/-- Whichever offset Go's resolution algorithm settles on, the instant of
a civil time sits between 18000 and 21600 seconds after its civil
seconds. -/
theorem toInstant_bounds (t : DateTime) :
    civilSecs t + 18000 ≤ toInstant t ∧ toInstant t ≤ civilSecs t + 21600 := by
  have h1 := chiOffset_cases (civilSecs t)
  have h2 := chiOffset_cases (civilSecs t - chiOffset (civilSecs t))
  simp only [toInstant]
  split_ifs
  · rcases h2 with h2 | h2 <;> rw [h2] <;> omega
  · rcases h1 with h1 | h1 <;> rw [h1] <;> omega

/-- Everything the sweep removes parses to a bucket whose instant is
strictly older than the cutoff. -/
theorem cleanup_mem (entries : List DirEntry) (now : Int) (r : Nat) (x : String)
    (h : x ∈ cleanupOldLogs entries now r) :
    ∃ t, parseLogName x = some t ∧ toInstant t < now - (r : Int) * 3600 := by
  rw [cleanupOldLogs, List.mem_filterMap] at h
  obtain ⟨e, -, he⟩ := h
  split_ifs at he with h1 h2
  cases hp : parseLogName e.name with
  | none =>
    simp only [hp] at he
    exact Option.noConfusion he
  | some t =>
    simp only [hp] at he
    split_ifs at he with h3
    exact Option.some.inj he ▸ ⟨t, hp, h3⟩

/-- Counterexample to C8 as stated: at the instant 2025-11-02T07:30:00Z —
01:30 CST, inside the hour civil time repeats after the DST fall-back —
with a retention window of exactly one hour, the sweep *does* remove the
bucket file `currentLogFile` names at that same instant.  `cxCivil` is
certified to be the civil view of `cxNow` (the offset link holds and the
components are valid), yet the name `2025-11-02T01.log` parses back to
the *earlier* occurrence of 01:00 (06:00:00Z, CDT), which is 5400 seconds
old and thus strictly before the one-hour cutoff 06:30:00Z. -/
theorem c8_counterexample_dst_fallback :
    civilSecs cxCivil = cxNow + chiOffset cxNow ∧ ValidDT cxCivil ∧ 1 ≤ 1 ∧
    formatHourFile cxCivil ∈ cleanupOldLogs cxEntries cxNow 1 := by
  decide

/-- C8 (amended): For every sweep instant `u` with civil view `t` in
America/Chicago and any retention window of at least two hours, the sweep
never removes the bucket file `currentLogFile` names at that instant: the
current hour's bucket instant trails `u` by less than 3600 civil seconds
plus at most 3600 seconds of DST skew, so it is never strictly before the
cutoff.  (One hour is not enough: see the fall-back counterexample.) -/
theorem c8_sweep_spares_current_hour (entries : List DirEntry) (u : Int) (t : DateTime)
    (r : Nat) (hview : civilSecs t = u + chiOffset u) (hv : ValidDT t) (hr : 2 ≤ r) :
    formatHourFile t ∉ cleanupOldLogs entries u r := by
  intro hmem
  obtain ⟨tb, hp, hlt⟩ := cleanup_mem entries u r _ hmem
  rw [parse_formatHourFile t hv] at hp
  obtain rfl : tb = ⟨t.y, t.m, t.d, t.h, 0, 0⟩ := (Option.some.inj hp).symm
  have h1 : t.mi < 60 := hv.2.2.2.2.2.2.1
  have h2 : t.s < 60 := hv.2.2.2.2.2.2.2
  have h3 : (2 : Int) ≤ (r : Int) := by exact_mod_cast hr
  have h4 := toInstant_bounds ⟨t.y, t.m, t.d, t.h, 0, 0⟩
  have h5 := chiOffset_cases u
  simp only [civilSecs] at h4 hview
  rcases h5 with h5 | h5 <;> rw [h5] at hview <;> omega

/-- Witness for the amended C8: at 2025-10-11 14:30 CDT with the 168-hour
window, the sweep over a directory containing the current bucket leaves
it alone. -/
theorem c8_sweep_spares_current_hour_witness :
    civilSecs wNow = wNowInstant + chiOffset wNowInstant ∧ ValidDT wNow ∧ 2 ≤ 168 ∧
    formatHourFile wNow ∉ cleanupOldLogs wEntries wNowInstant 168 :=
  ⟨by decide, by decide, by decide,
    c8_sweep_spares_current_hour wEntries wNowInstant wNow 168 (by decide) (by decide)
      (by decide)⟩

/-! ## Lemmas: `clean` on accepted candidates -/

/-- A split never yields an empty segment list. -/
theorem segsOf_ne_nil (l : List Char) : segsOf l ≠ [] := by
  cases l with
  | nil => simp [segsOf]
  | cons c rest =>
    simp only [segsOf]
    split_ifs
    · simp
    · split <;> simp

/-- A slash-free list is a single segment. -/
theorem segsOf_no_slash (l : List Char) (h : '/' ∉ l) : segsOf l = [l] := by
  induction l with
  | nil => rfl
  | cons c rest ih =>
    have hc : ¬ c = '/' := by rintro rfl; exact h (List.mem_cons_self _ _)
    have hr : '/' ∉ rest := fun hm => h (List.mem_cons_of_mem c hm)
    simp only [segsOf, if_neg hc, ih hr]

/-- Splitting distributes over a separator. -/
theorem segsOf_append_slash (a b : List Char) :
    segsOf (a ++ '/' :: b) = segsOf a ++ segsOf b := by
  induction a with
  | nil => rfl
  | cons c a1 ih =>
    by_cases hc : c = '/'
    · subst hc
      simp only [List.cons_append, segsOf, if_pos rfl, if_true, List.append_eq, ih]
    · obtain ⟨s, ss, hss⟩ : ∃ s ss, segsOf a1 = s :: ss := by
        cases hsa : segsOf a1 with
        | nil => exact absurd hsa (segsOf_ne_nil a1)
        | cons s ss => exact ⟨s, ss, rfl⟩
      simp only [List.cons_append, segsOf, if_neg hc, List.append_eq, ih, hss]

/-- The element stack processes concatenated segment lists in sequence. -/
theorem cleanStack_append (r : Bool) (xs ys acc : List (List Char)) :
    cleanStack r acc (xs ++ ys) = cleanStack r (cleanStack r acc xs) ys := by
  induction xs generalizing acc with
  | nil => rfl
  | cons s xs ih =>
    simp only [List.cons_append, cleanStack]
    split_ifs <;> exact ih _

/-- A real element (not empty, `.` or `..`) is pushed onto the stack. -/
theorem cleanStack_push (r : Bool) (acc : List (List Char)) (seg : List Char)
    (h0 : seg ≠ []) (h1 : seg ≠ ['.']) (h2 : seg ≠ ['.', '.']) :
    cleanStack r acc [seg] = acc ++ [seg] := by
  simp only [cleanStack, if_neg (not_or.mpr ⟨h0, h1⟩), if_neg h2]

/-- Joining after appending one last element. -/
theorem joinSegs_append_single (st : List (List Char)) (x : List Char) :
    joinSegs (st ++ [x]) = if st = [] then x else joinSegs st ++ '/' :: x := by
  induction st with
  | nil => simp [joinSegs]
  | cons s st ih =>
    cases st with
    | nil => simp [joinSegs]
    | cons s2 st2 =>
      rw [List.cons_append] at ih
      simp only [List.cons_append, joinSegs, List.append_eq, ih,
        if_neg (by simp : ¬(s2 :: st2 = [])), if_neg (by simp : ¬(s :: s2 :: st2 = [])),
        List.append_assoc, List.cons_append]

/-- `Clean` is the identity on a nonempty slash-free path other than `.`
and `..`. -/
theorem clean_single (l : List Char) (h0 : l ≠ []) (hs : '/' ∉ l) (h1 : l ≠ ['.'])
    (h2 : l ≠ ['.', '.']) : cleanL l = l := by
  cases l with
  | nil => exact absurd rfl h0
  | cons c t =>
    have hc : ¬ c = '/' := by rintro rfl; exact hs (List.mem_cons_self _ _)
    have hrooted : ¬ (c :: t).head? = some '/' := by
      simp only [List.head?, Option.some.injEq]
      exact hc
    simp only [cleanL, if_neg (show ¬(c :: t = []) by simp)]
    rw [segsOf_no_slash _ hs, cleanStack_push _ _ _ (show c :: t ≠ [] by simp) h1 h2,
      List.nil_append, if_neg hrooted,
      if_neg (show ¬([c :: t] = ([] : List (List Char))) by simp)]
    rfl

/-! ## Lemmas: `Base` of a joined path -/

/-- `takeWhile` runs past a block that wholly satisfies the predicate. -/
theorem takeWhile_all_append {α : Type} (p : α → Bool) (xs ys : List α)
    (h : ∀ x ∈ xs, p x = true) :
    List.takeWhile p (xs ++ ys) = xs ++ List.takeWhile p ys := by
  induction xs with
  | nil => rfl
  | cons x xs ih =>
    rw [List.cons_append, List.takeWhile_cons, if_pos (h x (List.mem_cons_self _ _)),
      List.cons_append, ih (fun a ha => h a (List.mem_cons_of_mem x ha))]

/-- `Base` of a path that is a slash-free nonempty element `b` preceded by
nothing or by something ending in a separator is exactly `b`. -/
theorem baseName_of_append (s : String) (pre b : List Char) (hs : s.data = pre ++ b)
    (hb1 : b ≠ []) (hb2 : '/' ∉ b) (hpre : pre = [] ∨ ∃ q, pre = q ++ ['/']) :
    baseName s = ⟨b⟩ := by
  obtain ⟨c, t, rfl⟩ : ∃ c t, b = c :: t := by
    cases b with
    | nil => exact absurd rfl hb1
    | cons c t => exact ⟨c, t, rfl⟩
  have hsne : ¬ s = "" := by
    intro he
    rw [he] at hs
    exact absurd hs.symm (by simp)
  have hrev : s.data.reverse = (c :: t).reverse ++ pre.reverse := by
    rw [hs, List.reverse_append]
  have hbrev : ∀ x ∈ (c :: t).reverse, (x ≠ '/' : Bool) = true := by
    intro x hx
    have : x ∈ c :: t := List.mem_reverse.mp hx
    simp only [ne_eq, decide_eq_true_eq]
    rintro rfl
    exact hb2 this
  obtain ⟨d, r, hdr⟩ : ∃ d r, (c :: t).reverse = d :: r := by
    cases hrv : (c :: t).reverse with
    | nil => exact absurd hrv (by simp)
    | cons d r => exact ⟨d, r, rfl⟩
  have hd : ¬ d = '/' := by
    have : (d ≠ '/' : Bool) = true := hbrev d (hdr ▸ List.mem_cons_self _ _)
    simpa using this
  have hdrop : dropTrailingSep s.data = s.data := by
    rw [dropTrailingSep, hrev, hdr, List.cons_append, List.dropWhile_cons,
      if_neg (by simpa using hd)]
    rw [← List.cons_append, ← hdr, ← List.reverse_append, ← hs, List.reverse_reverse]
  have htake : afterLastSep s.data = c :: t := by
    rw [afterLastSep, hrev, takeWhile_all_append _ _ _ hbrev]
    rcases hpre with rfl | ⟨q, rfl⟩
    · simp
    · have h9 : List.takeWhile (fun x => decide (x ≠ '/')) (q ++ ['/']).reverse = [] := by
        rw [List.reverse_append]
        simp
      rw [h9, List.append_nil, List.reverse_reverse]
  rw [baseName, if_neg hsne]
  simp only [hdrop, htake]
  rw [if_neg (by rw [hs]; simp)]

/-- The tail of `cleanL` once the stack is known to end in the pushed
element `b`: the result is `b` preceded by nothing or by a block ending in
a separator. -/
theorem cleanL_tail_structure (rooted : Prop) [Decidable rooted] (st0 : List (List Char))
    (b : List Char) :
    ∃ pre, (if rooted then '/' :: joinSegs (st0 ++ [b])
        else if st0 ++ [b] = [] then ['.'] else joinSegs (st0 ++ [b])) = pre ++ b ∧
      (pre = [] ∨ ∃ q, pre = q ++ ['/']) := by
  by_cases hr : rooted
  · rw [if_pos hr, joinSegs_append_single]
    by_cases hst : st0 = []
    · rw [if_pos hst]
      exact ⟨['/'], rfl, Or.inr ⟨[], rfl⟩⟩
    · rw [if_neg hst]
      exact ⟨'/' :: joinSegs st0 ++ ['/'], by simp, Or.inr ⟨_, rfl⟩⟩
  · rw [if_neg hr, if_neg (show ¬(st0 ++ [b] = []) by simp), joinSegs_append_single]
    by_cases hst : st0 = []
    · rw [if_pos hst]
      exact ⟨[], rfl, Or.inl rfl⟩
    · rw [if_neg hst]
      exact ⟨joinSegs st0 ++ ['/'], by simp, Or.inr ⟨_, rfl⟩⟩

/-- The structure of `Join(root, p)` for a flat candidate `p`: the
candidate's characters preceded by nothing or by a block ending in a
separator. -/
theorem join2_structure (root p1 : String) (h0 : p1.data ≠ []) (hs : '/' ∉ p1.data)
    (h1 : p1.data ≠ ['.']) (h2 : p1.data ≠ ['.', '.']) :
    ∃ pre, (join2 root p1).data = pre ++ p1.data ∧ (pre = [] ∨ ∃ q, pre = q ++ ['/']) := by
  by_cases hroot : root = ""
  · have hp1 : ¬ p1 = "" := by
      intro he
      exact h0 (by rw [he])
    refine ⟨[], ?_, Or.inl rfl⟩
    rw [join2, if_pos hroot, if_neg hp1]
    show cleanL p1.data = [] ++ p1.data
    rw [clean_single p1.data h0 hs h1 h2, List.nil_append]
  · have hl : ¬ (root.data ++ '/' :: p1.data) = [] := by simp
    have hsegs : segsOf (root.data ++ '/' :: p1.data) = segsOf root.data ++ [p1.data] := by
      rw [segsOf_append_slash, segsOf_no_slash _ hs]
    rw [join2, if_neg hroot]
    show ∃ pre, cleanL (root.data ++ '/' :: p1.data) = pre ++ p1.data ∧
      (pre = [] ∨ ∃ q, pre = q ++ ['/'])
    simp only [cleanL, if_neg hl]
    rw [hsegs, cleanStack_append, cleanStack_push _ _ _ h0 h1 h2]
    exact cleanL_tail_structure _ _ _

/-- C10: On any candidate that `sanitizePath` accepts, the `Clean` step
is the identity, the returned path is exactly `filepath.Join` of the
served root with the candidate minus its single leading slash, and the
base name of the returned path equals that remainder character for
character. -/
theorem c10_accepted_path_exact_join (cwd root p out : String)
    (h : sanitizePath cwd root p = Except.ok out) :
    clean (stripSlash p) = stripSlash p ∧
    out = join2 root (stripSlash p) ∧
    baseName out = stripSlash p := by
  simp only [sanitizePath] at h
  split_ifs at h with h1 h2 h3 h4 h5
  obtain rfl : join2 root (clean (stripSlash p)) = out := Except.ok.inj h
  have hne : (stripSlash p).data ≠ [] := by
    intro hd
    exact h1 (Or.inl (String.ext (by rw [hd])))
  have hslash : '/' ∉ (stripSlash p).data := fun hm => h2 (Or.inl hm)
  have hdot : (stripSlash p).data ≠ ['.'] := by
    intro hd
    exact h1 (Or.inr (String.ext (by rw [hd])))
  have hdd : (stripSlash p).data ≠ ['.', '.'] := by
    intro hd
    apply h3
    rw [hd]
    exact List.infix_refl dotdotL
  have hclean : clean (stripSlash p) = stripSlash p :=
    String.ext (clean_single _ hne hslash hdot hdd)
  refine ⟨hclean, by rw [hclean], ?_⟩
  rw [hclean]
  obtain ⟨pre, hpre, hcase⟩ := join2_structure root (stripSlash p) hne hslash hdot hdd
  exact baseName_of_append _ pre _ hpre hne hslash hcase

/-- Witness for C10: for `/index.html` the returned path is the plain
join and its base name is `index.html`. -/
theorem c10_accepted_path_exact_join_witness :
    clean (stripSlash wPathHtml) = stripSlash wPathHtml ∧
    wOutHtml = join2 wRoot (stripSlash wPathHtml) ∧
    baseName wOutHtml = stripSlash wPathHtml :=
  c10_accepted_path_exact_join wCwd wRoot wPathHtml wOutHtml (by rfl)

end SimpleWebHost
